import Mathlib

/-!
Shallow embedding of the search orchestration engine of the repository
(backend/services/search_service.py together with
backend/services/reranking_service.py, backend/services/vector_service.py and
backend/services/fulltext_service.py), and proofs about its behaviour.

Modelling conventions:
* Python floats are modelled as exact rationals.
* Python strings are Lean strings; `len` is the number of unicode scalar
  values, `term in query` is substring containment, `str.split()` is a
  whitespace split discarding empty tokens.
* Python dicts used as insertion-ordered maps become association lists with
  insert-or-update-in-place operations.
* External collaborators (the vector store, the BM25 engine, the BGE model,
  the sklearn DBSCAN fit) are parameters of the embedded functions; fallible
  external calls return `Except String`.
* Fields of SearchResult that no modelled code path reads (the per-result
  fresh uuid, the timestamp, the metadata mapping) are omitted.
-/

namespace SearchSpec

/-- Retrieval strategies of the engine. -/
inductive Strategy
  | semantic
  | fulltext
  | hybrid
deriving DecidableEq, Repr

/-- String form of a strategy, as used by the orchestrator. -/
def Strategy.toStr : Strategy → String
  | .semantic => "semantic"
  | .fulltext => "fulltext"
  | .hybrid => "hybrid"

/-- Per-strategy score mapping (the dicts built by the two scorers). -/
structure StrategyScores where
  semantic : ℚ
  fulltext : ℚ
  hybrid : ℚ
deriving DecidableEq, Repr

/-- Score of one strategy in a score mapping. -/
def StrategyScores.score (s : StrategyScores) : Strategy → ℚ
  | .semantic => s.semantic
  | .fulltext => s.fulltext
  | .hybrid => s.hybrid

/-- Maximal runs of non-whitespace characters (helper for tokens). -/
def tokens_aux : List Char → List Char → List (List Char)
  | [], acc => if acc.isEmpty then [] else [acc.reverse]
  | c :: cs, acc =>
    if c.isWhitespace then
      if acc.isEmpty then tokens_aux cs [] else acc.reverse :: tokens_aux cs []
    else tokens_aux cs (c :: acc)

/-- Whitespace tokenisation discarding empty tokens (Python str.split()). -/
def tokens (q : String) : List (List Char) :=
  tokens_aux q.toList []

/-- Substring containment (Python `term in query`). -/
def contains_sub (q term : String) : Bool :=
  q.toList.tails.any (fun t => term.toList.isPrefixOf t)

/-- Whether any of the terms occurs in the query. -/
def contains_any (terms : List String) (q : String) : Bool :=
  terms.any (fun t => contains_sub q t)

/-- Quote detection: a double or single quote character occurs in the query. -/
def has_quote (q : String) : Bool :=
  q.toList.contains (Char.ofNat 34) || q.toList.contains (Char.ofNat 39)

/-- The fixed special punctuation set of _analyze_query_features. -/
def special_chars : List Char := [':', '/', '+', '-', '&', '|', '!', '(', ')', '*']

/-- Whether the query contains any special punctuation character. -/
def has_special (q : String) : Bool :=
  special_chars.any (fun c => q.toList.contains c)

/-- Definition-style keywords. -/
def definition_terms : List String := ["定义", "是什么", "概念", "解释", "含义"]

/-- Procedural keywords. -/
def operation_terms : List String := ["如何", "怎么", "方法", "步骤", "流程", "教程"]

/-- Comparison keywords. -/
def comparison_terms : List String := ["比较", "区别", "差异", "优缺点", "vs", "versus"]

/-- Open-ended keywords. -/
def open_terms : List String := ["为什么", "原因", "影响", "作用", "意义"]

/-- Embedding of SearchService._analyze_query_features: heuristic per-strategy
feature scores, additive into a base score of hybrid = 0.5. -/
def analyze_query_features (query : String) : StrategyScores :=
  let s : StrategyScores := ⟨0, 0, 1/2⟩
  let s := if query.length < 5 then {s with fulltext := s.fulltext + 2/5}
           else if query.length ≤ 10 then {s with hybrid := s.hybrid + 1/5}
           else {s with semantic := s.semantic + 3/10}
  let s := if has_quote query then {s with fulltext := s.fulltext + 1/2} else s
  let s := if has_special query then {s with fulltext := s.fulltext + 3/10} else s
  let s := if contains_any definition_terms query then
             {s with fulltext := s.fulltext + 2/5} else s
  let s := if contains_any operation_terms query then
             {s with fulltext := s.fulltext + 3/10, hybrid := s.hybrid + 1/10} else s
  let s := if contains_any comparison_terms query then
             {s with semantic := s.semantic + 3/10, hybrid := s.hybrid + 1/5} else s
  let s := if contains_any open_terms query then
             {s with semantic := s.semantic + 2/5} else s
  let s := if (tokens query).length > 7 then
             {s with semantic := s.semantic + 1/5} else s
  s

/-- One entry of the analytics query log, as produced by log_search. -/
structure LogEntry where
  query : String
  strategy : String
  response_time : ℚ
  result_count : ℕ
deriving DecidableEq, Repr

/-- Keyword set of a query (Python set(query.split()), as a dedup list). -/
def token_set (q : String) : List (List Char) := (tokens q).dedup

/-- Embedding of SearchService._find_similar_queries: Jaccard token overlap
against the most recent 100 log entries, threshold 0.3, sorted by similarity
descending (stable), truncated to the limit. -/
def find_similar_queries (logs : List LogEntry) (query : String) (limit : ℕ) :
    List LogEntry :=
  let keywords := token_set query
  let recent := logs.drop (logs.length - 100)
  let cands := recent.filterMap (fun log =>
    let lk := token_set log.query
    if lk.isEmpty then none
    else
      let overlap : ℚ :=
        ((keywords.filter (fun w => lk.contains w)).length : ℚ) /
          (((keywords ++ lk).dedup).length : ℚ)
      if 3/10 < overlap then some (log, overlap) else none)
  ((List.insertionSort (fun a b : LogEntry × ℚ => b.2 ≤ a.2) cands).map Prod.fst).take limit

/-- Performance score of one strategy over its matching similar-query logs. -/
def perf_for (slogs : List LogEntry) : ℚ :=
  let n : ℚ := slogs.length
  let avg_rt : ℚ := ((slogs.map (fun l => l.response_time)).sum) / n
  let time_score : ℚ := 1 / (1 + avg_rt)
  let avg_rc : ℚ := ((slogs.map (fun l => (l.result_count : ℚ))).sum) / n
  let rc_score : ℚ := if 1 ≤ avg_rc ∧ avg_rc ≤ 20 then 3/10 else 0
  time_score * (7/10) + rc_score * (3/10)

/-- Embedding of SearchService._analyze_historical_performance. -/
def analyze_historical_performance (logs : List LogEntry) (query : String) :
    StrategyScores :=
  let similar := find_similar_queries logs query 5
  if similar.isEmpty then ⟨0, 0, 0⟩
  else
    let perf := fun (name : String) =>
      let slogs := similar.filter (fun l => l.strategy == name)
      if slogs.isEmpty then 0 else perf_for slogs
    ⟨perf "semantic", perf "fulltext", perf "hybrid"⟩

/-- The merged final scores of _select_strategy_by_scores:
0.7 * feature score + 0.3 * history score, per strategy. -/
def final_scores (f h : StrategyScores) : StrategyScores :=
  ⟨f.semantic * (7/10) + h.semantic * (3/10),
   f.fulltext * (7/10) + h.fulltext * (3/10),
   f.hybrid * (7/10) + h.hybrid * (3/10)⟩

/-- Embedding of SearchService._select_strategy_by_scores.  Python max over
the dict items returns the first maximal entry in insertion order
(semantic, fulltext, hybrid); afterwards a non-hybrid winner whose margin
over hybrid is below 0.1 is overridden to hybrid. -/
def select_strategy_by_scores (f h : StrategyScores) : Strategy :=
  let fs := final_scores f h
  let best : Strategy :=
    if fs.fulltext ≤ fs.semantic ∧ fs.hybrid ≤ fs.semantic then .semantic
    else if fs.hybrid ≤ fs.fulltext then .fulltext
    else .hybrid
  if best ≠ Strategy.hybrid ∧ fs.score best - fs.hybrid < 1/10 then .hybrid else best

/-- Embedding of SearchService._determine_best_strategy. -/
def determine_best_strategy (logs : List LogEntry) (query : String) : Strategy :=
  select_strategy_by_scores (analyze_query_features query)
    (analyze_historical_performance logs query)

/-- The SearchResult record (models/search.py).  The per-result fresh uuid,
the timestamp and the metadata mapping are never read by the modelled logic
and are omitted. -/
structure SearchResult where
  title : String
  content : String
  source : String
  document_id : String
  score : ℚ
  cluster : Option String
deriving DecidableEq, Repr

/-- The ClusterInfo record (models/search.py). -/
structure ClusterInfo where
  name : String
  count : ℕ
deriving DecidableEq, Repr

/-- Descending-score comparison used by every reverse=True sort on results. -/
def score_ge (a b : SearchResult) : Prop := b.score ≤ a.score

instance : DecidableRel score_ge := fun a b =>
  inferInstanceAs (Decidable (b.score ≤ a.score))

instance : IsTotal SearchResult score_ge := ⟨fun a b => le_total b.score a.score⟩

instance : IsTrans SearchResult score_ge :=
  ⟨fun _ _ _ h1 h2 => le_trans h2 h1⟩

/-- Stable descending sort by score, as Python sorted(..., reverse=True). -/
def sort_by_score_desc (l : List SearchResult) : List SearchResult :=
  List.insertionSort score_ge l

/-- Candidate key of the fusion map: document id and the first 50 characters
of the content, joined by a colon. -/
def result_key (r : SearchResult) : String :=
  r.document_id ++ ":" ++ ⟨r.content.toList.take 50⟩

/-- One value of the fusion result map: the stored result together with its
semantic and fulltext score components. -/
structure FusionEntry where
  result : SearchResult
  semantic_score : ℚ
  fulltext_score : ℚ
deriving DecidableEq, Repr

/-- Handling of one semantic result in _legacy_hybrid_search: dict assignment
result_map[key] = {result, semantic_score, fulltext_score 0}, replacing in
place when the key exists and appending otherwise. -/
def add_semantic : List (String × FusionEntry) → SearchResult →
    List (String × FusionEntry)
  | [], r => [(result_key r, ⟨r, r.score, 0⟩)]
  | (k, e) :: rest, r =>
    if k = result_key r then (k, ⟨r, r.score, 0⟩) :: rest
    else (k, e) :: add_semantic rest r

/-- Handling of one fulltext result in _legacy_hybrid_search: update the
fulltext component of an existing entry in place, or append a new entry with
semantic component 0. -/
def add_fulltext : List (String × FusionEntry) → SearchResult →
    List (String × FusionEntry)
  | [], r => [(result_key r, ⟨r, 0, r.score⟩)]
  | (k, e) :: rest, r =>
    if k = result_key r then (k, ⟨e.result, e.semantic_score, r.score⟩) :: rest
    else (k, e) :: add_fulltext rest r

/-- The fusion core of _legacy_hybrid_search (lines 449-493): build the keyed
map from both input lists, compute the weighted combined score of every
entry, keep entries whose combined score reaches min_score, and sort the
kept results by descending combined score. -/
def legacy_fuse (semantic_results fulltext_results : List SearchResult)
    (semantic_weight fulltext_weight min_score : ℚ) : List SearchResult :=
  let m := semantic_results.foldl add_semantic []
  let m := fulltext_results.foldl add_fulltext m
  let combined := m.filterMap (fun p =>
    let cs := p.2.semantic_score * semantic_weight +
              p.2.fulltext_score * fulltext_weight
    if min_score ≤ cs then some {p.2.result with score := cs} else none)
  sort_by_score_desc combined

/-- Lookup of the fusion-map entry stored under a key (first match). -/
def lookup_entry : List (String × FusionEntry) → String → Option FusionEntry
  | [], _ => none
  | (k', e) :: rest, k => if k' = k then some e else lookup_entry rest k

/-- Every fusion-map entry is stored under the key of its result. -/
def entries_coherent (m : List (String × FusionEntry)) : Prop :=
  ∀ p ∈ m, p.1 = result_key p.2.result

/-- A raw hit as returned by the external Milvus search call, before the
in-repo min_score filter of the service layer. -/
structure RawHit where
  title : String
  content : String
  document_id : String
  score : ℚ
deriving DecidableEq, Repr

/-- Conversion of a raw hit into a SearchResult as in _semantic_search /
_fulltext_search (the uuid and timestamp fields are omitted). -/
def hit_to_result (h : RawHit) : SearchResult :=
  ⟨h.title, h.content, "", h.document_id, h.score, none⟩

/-- Embedding of VectorService.search followed by the conversion loop of
SearchService._semantic_search: the external engine returns raw hits (already
limited), and hits with score below min_score are skipped. -/
def semantic_search_model (hits : List RawHit) (min_score : ℚ) :
    List SearchResult :=
  (hits.filter (fun h => min_score ≤ h.score)).map hit_to_result

/-- Embedding of FulltextService.search followed by the conversion loop of
SearchService._fulltext_search; identical score filtering. -/
def fulltext_search_model (hits : List RawHit) (min_score : ℚ) :
    List SearchResult :=
  (hits.filter (fun h => min_score ≤ h.score)).map hit_to_result

/-- Embedding of SearchService._legacy_hybrid_search over abstract raw-hit
lists: both sub-retrievals are invoked with the relaxed threshold
min_score * 0.8, and fusion applies the caller's min_score to the combined
score. -/
def legacy_hybrid_search (sem_hits full_hits : List RawHit)
    (semantic_weight fulltext_weight min_score : ℚ) : List SearchResult :=
  legacy_fuse (semantic_search_model sem_hits (min_score * (4/5)))
    (fulltext_search_model full_hits (min_score * (4/5)))
    semantic_weight fulltext_weight min_score

/-- Embedding of RerankingService.rerank.  The model handle of the service is
represented by the model_loaded flag (self.model is None exactly when loading
failed); the external BGE encode-and-cosine computation is the compute
parameter, returning raw similarity scores or an error.  The in-repo clamp of
every score into the 0..1 range is applied to a successful result.  The
function is total: no error reaches the caller. -/
def rerank (model_loaded : Bool)
    (compute : String → List String → Except String (List ℚ))
    (query : String) (texts : List String) : List ℚ :=
  if !model_loaded then List.replicate texts.length 1
  else
    match compute query texts with
    | .error _ => List.replicate texts.length 1
    | .ok raw => raw.map (fun s => max 0 (min 1 s))

/-- The score-overwriting loop of SearchService._rerank_results.  Mirrors
Python mutation semantics: results are updated pairwise with the scores, and
if the score list is exhausted first the flag is true (the IndexError case),
leaving the remaining results untouched. -/
def update_scores : List SearchResult → List ℚ → List SearchResult × Bool
  | [], _ => ([], false)
  | r :: rs, [] => (r :: rs, true)
  | r :: rs, s :: ss =>
    let p := update_scores rs ss
    ({r with score := s} :: p.1, p.2)

/-- Embedding of SearchService._rerank_results: obtain new scores from the
reranking call, overwrite the result scores, and re-sort descending.  Any
error inside the body is caught and the current result list is returned. -/
def rerank_results (rerank_call : String → List String → Except String (List ℚ))
    (query : String) (results : List SearchResult) : List SearchResult :=
  match rerank_call query (results.map (fun r => r.content)) with
  | .error _ => results
  | .ok scores =>
    let p := update_scores results scores
    if p.2 then p.1 else sort_by_score_desc p.1

/-- Insertion of one (label, result) pair into the cluster map: append the
result to the group of its label, keeping first-seen key order, or start a
new group at the end (Python dict semantics of _cluster_results). -/
def insert_member (c : ℤ) (r : SearchResult) :
    List (ℤ × List SearchResult) → List (ℤ × List SearchResult)
  | [] => [(c, [r])]
  | (k, g) :: rest =>
    if k = c then (k, g ++ [r]) :: rest else (k, g) :: insert_member c r rest

/-- The cluster-map building loop of _cluster_results. -/
def build_cluster_map : List (SearchResult × ℤ) →
    List (ℤ × List SearchResult) → List (ℤ × List SearchResult)
  | [], m => m
  | (r, c) :: rest, m => build_cluster_map rest (insert_member c r m)

/-- Group stored under a key in the cluster map (dict access; empty when the
key is absent). -/
def group_of : List (ℤ × List SearchResult) → ℤ → List SearchResult
  | [], _ => []
  | (k, g) :: rest, c => if k = c then g else group_of rest c

/-- Python max(results, key score): the first result with maximal score. -/
def max_by_score : List SearchResult → Option SearchResult
  | [] => none
  | r :: rs => some (rs.foldl (fun best x => if best.score < x.score then x else best) r)

/-- Cluster display name of _cluster_results: title of the highest-scoring
member, or a synthesized label from the numeric cluster id when that title is
empty. -/
def cluster_name_of (cid : ℤ) (g : List SearchResult) : String :=
  match max_by_score g with
  | some top => if top.title = "" then "聚类 " ++ toString (cid + 1) else top.title
  | none => "聚类 " ++ toString (cid + 1)

/-- Embedding of SearchService._cluster_results.  encode_batch is the external
embedding encoder (can fail), dbscan_fit the external sklearn DBSCAN labelling
of the returned vectors.  Fewer than 2 results are returned unchanged; an
encoder error, or a label list shorter than the results (the IndexError case),
is caught and yields the original list with no clusters.  Otherwise results
are grouped by label, each group is named after its first highest-scoring
member, every member's cluster field is set to that name, and the output
visits the keys in ascending order with each group sorted by descending
score. -/
def cluster_results (encode_batch : List String → Except String (List (List ℚ)))
    (dbscan_fit : List (List ℚ) → List ℤ)
    (results : List SearchResult) : List SearchResult × List ClusterInfo :=
  if results.length ≤ 1 then (results, [])
  else
    match encode_batch (results.map (fun r => r.content)) with
    | .error _ => (results, [])
    | .ok vectors =>
      let labels := dbscan_fit vectors
      if labels.length < results.length then (results, [])
      else
        let cmap := build_cluster_map (results.zip labels) []
        let named := cmap.map (fun p => (p.1, cluster_name_of p.1 p.2, p.2))
        let clusters := named.map (fun t => ClusterInfo.mk t.2.1 t.2.2.length)
        let amap := named.map (fun t =>
          (t.1, t.2.2.map (fun r => {r with cluster := some t.2.1})))
        let sorted_keys := List.insertionSort (fun a b : ℤ => a ≤ b) (amap.map (fun p => p.1))
        (sorted_keys.flatMap (fun c => sort_by_score_desc (group_of amap c)), clusters)

/-- External collaborators of the orchestrator.  Retrieval functions receive
the query, the knowledge-base ids, the limit and the min_score exactly as the
source passes them; the hybrid retriever additionally receives the two blend
weights.  Retrieval errors are surfaced, matching the re-raise in
_semantic_search, _fulltext_search and _hybrid_search. -/
structure SearchDeps where
  semantic_retrieve : String → List String → ℕ → ℚ → Except String (List SearchResult)
  fulltext_retrieve : String → List String → ℕ → ℚ → Except String (List SearchResult)
  hybrid_retrieve : String → List String → ℚ → ℚ → ℕ → ℚ → Except String (List SearchResult)
  rerank_call : String → List String → Except String (List ℚ)
  encode_batch : List String → Except String (List (List ℚ))
  dbscan_fit : List (List ℚ) → List ℤ

/-- Embedding of SearchService.search (lines 28-89): resolve the strategy,
retrieve with limit max_results * 2, optionally rerank and cluster when more
than one result remains, and truncate the result list to max_results at the
very end.  The returned pair carries the final results and the cluster
summaries (self.clusters).  An unsupported strategy raises ValueError,
modelled as an error value. -/
def search (deps : SearchDeps) (logs : List LogEntry) (query : String)
    (knowledge_base_ids : List String) (strategy : String)
    (semantic_weight fulltext_weight : ℚ) (max_results : ℕ) (min_score : ℚ)
    (use_reranking use_clustering : Bool) :
    Except String (List SearchResult × List ClusterInfo) := do
  let strat := if strategy = "auto" then (determine_best_strategy logs query).toStr
               else strategy
  let results ←
    if strat = "semantic" then
      deps.semantic_retrieve query knowledge_base_ids (max_results * 2) min_score
    else if strat = "fulltext" then
      deps.fulltext_retrieve query knowledge_base_ids (max_results * 2) min_score
    else if strat = "hybrid" then
      deps.hybrid_retrieve query knowledge_base_ids semantic_weight
        fulltext_weight (max_results * 2) min_score
    else .error ("不支持的检索策略: " ++ strat)
  let results :=
    if use_reranking && results.length > 1 then
      rerank_results deps.rerank_call query results
    else results
  let rc :=
    if use_clustering && results.length > 1 then
      cluster_results deps.encode_batch deps.dbscan_fit results
    else (results, [])
  return (rc.1.take max_results, rc.2)

/-- The untruncated pipeline, following the spec's words in section 4.5: the
same stages as search but without the final cut to max_results.  Used to
state that truncation is the last step of the pipeline. -/
def search_untruncated (deps : SearchDeps) (logs : List LogEntry)
    (query : String) (knowledge_base_ids : List String) (strategy : String)
    (semantic_weight fulltext_weight : ℚ) (max_results : ℕ) (min_score : ℚ)
    (use_reranking use_clustering : Bool) :
    Except String (List SearchResult × List ClusterInfo) := do
  let strat := if strategy = "auto" then (determine_best_strategy logs query).toStr
               else strategy
  let results ←
    if strat = "semantic" then
      deps.semantic_retrieve query knowledge_base_ids (max_results * 2) min_score
    else if strat = "fulltext" then
      deps.fulltext_retrieve query knowledge_base_ids (max_results * 2) min_score
    else if strat = "hybrid" then
      deps.hybrid_retrieve query knowledge_base_ids semantic_weight
        fulltext_weight (max_results * 2) min_score
    else .error ("不支持的检索策略: " ++ strat)
  let results :=
    if use_reranking && results.length > 1 then
      rerank_results deps.rerank_call query results
    else results
  let rc :=
    if use_clustering && results.length > 1 then
      cluster_results deps.encode_batch deps.dbscan_fit results
    else (results, [])
  return rc

/-- The block of one cluster in the spec description of section 4.4: the
results carrying label c, in input order, each with its cluster field set to
the representative name of the cluster, sorted by descending score. -/
def cluster_group_spec (results : List SearchResult) (labels : List ℤ)
    (c : ℤ) : List SearchResult :=
  let members := ((results.zip labels).filter (fun p => p.2 == c)).map Prod.fst
  sort_by_score_desc
    (members.map (fun r => {r with cluster := some (cluster_name_of c members)}))

/-- Description of the clustered output following the spec's words in section
4.4: clusters are visited in ascending order of the cluster identifier, and
each cluster contributes its block contiguously. -/
def cluster_output_spec (results : List SearchResult) (labels : List ℤ) :
    List SearchResult :=
  (List.insertionSort (fun a b : ℤ => a ≤ b) labels.dedup).flatMap
    (cluster_group_spec results labels)

/-- Concrete sample results used to instantiate the theorems. -/
def r_a : SearchResult := ⟨"标题A", "内容A", "", "docA", 9/10, none⟩

/-- Second sample result. -/
def r_b : SearchResult := ⟨"标题B", "内容B", "", "docB", 4/5, none⟩

/-- Third sample result, with an empty title. -/
def r_c : SearchResult := ⟨"", "内容C", "", "docC", 3/5, none⟩

/-- A reranking call that always fails. -/
def fail_rerank_call : String → List String → Except String (List ℚ) :=
  fun _ _ => Except.error "重排序失败"

/-- An embedding encoder that always fails. -/
def fail_encode : List String → Except String (List (List ℚ)) :=
  fun _ => Except.error "编码失败"

/-- An embedding encoder returning one trivial vector per text. -/
def ok_encode : List String → Except String (List (List ℚ)) :=
  fun ts => Except.ok (ts.map (fun _ => [0]))

/-- A semantic result and a fulltext result that share document id and
content, hence the same candidate key. -/
def sem_r : SearchResult := ⟨"标题", "相同内容", "", "doc1", 9/10, none⟩

/-- Fulltext twin of sem_r with a different score. -/
def full_r : SearchResult := ⟨"标题", "相同内容", "", "doc1", 1/2, none⟩

/-- A raw semantic hit whose score lies in the relaxed band of C10. -/
def hit_sem : RawHit := ⟨"标题", "内容", "doc1", 3/5⟩

/-- A raw fulltext hit for the same passage with a high score. -/
def hit_full : RawHit := ⟨"标题", "内容", "doc1", 1⟩

/-- A DBSCAN fit returning the fixed labelling 1, 0, 1. -/
def fit_101 : List (List ℚ) → List ℤ := fun _ => [1, 0, 1]

/-- Collaborators that fail at every external call. -/
def deps_err : SearchDeps :=
  ⟨fun _ _ _ _ => Except.error "检索失败",
   fun _ _ _ _ => Except.error "检索失败",
   fun _ _ _ _ _ _ => Except.error "检索失败",
   fail_rerank_call, fail_encode, fun _ => []⟩

/-- Collaborators that succeed with fixed data. -/
def deps_ok : SearchDeps :=
  ⟨fun _ _ _ _ => Except.ok [r_a, r_b, r_c],
   fun _ _ _ _ => Except.ok [r_a],
   fun _ _ _ _ _ _ => Except.ok [r_a, r_b],
   fun _ ts => Except.ok (ts.map (fun _ => 1)),
   ok_encode, fun _ => [1, 0, 1]⟩

/-- C9: clustering an input list with fewer than 2 results returns the list
unchanged together with an empty cluster-summary list. -/
theorem claim_C9_cluster_noop
    (encode_batch : List String → Except String (List (List ℚ)))
    (dbscan_fit : List (List ℚ) → List ℤ)
    (results : List SearchResult) (h : results.length ≤ 1) :
    cluster_results encode_batch dbscan_fit results = (results, []) := by
  unfold cluster_results
  rw [if_pos h]

theorem claim_C9_cluster_noop_witness :
    ([r_a].length ≤ 1) ∧
      cluster_results fail_encode (fun _ => []) [r_a] = ([r_a], []) :=
  ⟨by decide, claim_C9_cluster_noop fail_encode (fun _ => []) [r_a] (by decide)⟩

/-- C6: when the relevance model is not loaded, or the external model
invocation errors, rerank returns a list of exactly len(texts) scores all
equal to 1.0; the function is total, so no error reaches its caller. -/
theorem claim_C6_rerank_fallback
    (compute : String → List String → Except String (List ℚ))
    (query : String) (texts : List String) (e : String) :
    rerank false compute query texts = List.replicate texts.length 1 ∧
      (compute query texts = Except.error e →
        rerank true compute query texts = List.replicate texts.length 1) := by
  constructor
  · simp [rerank]
  · intro h
    simp [rerank, h]

theorem claim_C6_rerank_fallback_witness :
    rerank false fail_rerank_call "查询" ["甲", "乙"] =
        List.replicate (["甲", "乙"].length) 1 ∧
      rerank true fail_rerank_call "查询" ["甲", "乙"] =
        List.replicate (["甲", "乙"].length) 1 :=
  ⟨(claim_C6_rerank_fallback fail_rerank_call "查询" ["甲", "乙"] "重排序失败").1,
   (claim_C6_rerank_fallback fail_rerank_call "查询" ["甲", "乙"] "重排序失败").2 rfl⟩

/-- C5: an error of the chosen primary retrieval call propagates out of the
orchestrator's search, for each of the three strategies, while an error
inside reranking returns the pre-rerank list unchanged and an error inside
clustering returns the pre-clustering list with an empty cluster list. -/
theorem claim_C5_error_policy (deps : SearchDeps) (logs : List LogEntry)
    (query : String) (kbs : List String) (sw fw : ℚ) (mr : ℕ) (ms : ℚ)
    (uR uC : Bool) (e : String) :
    (deps.semantic_retrieve query kbs (mr * 2) ms = Except.error e →
      search deps logs query kbs "semantic" sw fw mr ms uR uC = Except.error e) ∧
    (deps.fulltext_retrieve query kbs (mr * 2) ms = Except.error e →
      search deps logs query kbs "fulltext" sw fw mr ms uR uC = Except.error e) ∧
    (deps.hybrid_retrieve query kbs sw fw (mr * 2) ms = Except.error e →
      search deps logs query kbs "hybrid" sw fw mr ms uR uC = Except.error e) ∧
    (∀ results : List SearchResult,
      deps.rerank_call query (results.map (fun r => r.content)) = Except.error e →
      rerank_results deps.rerank_call query results = results) ∧
    (∀ results : List SearchResult,
      deps.encode_batch (results.map (fun r => r.content)) = Except.error e →
      cluster_results deps.encode_batch deps.dbscan_fit results = (results, [])) := by
  refine ⟨fun h => ?_, fun h => ?_, fun h => ?_, fun results h => ?_, fun results h => ?_⟩
  · simp [search, h]
  · simp [search, h]
  · simp [search, h]
  · simp [rerank_results, h]
  · unfold cluster_results
    split
    · rfl
    · rw [h]

theorem claim_C5_error_policy_witness :
    search deps_err [] "查询" [] "semantic" (7/10) (3/10) 10 (7/10) true true =
        Except.error "检索失败" ∧
      rerank_results deps_err.rerank_call "查询" [r_a, r_b] = [r_a, r_b] ∧
      cluster_results deps_err.encode_batch deps_err.dbscan_fit [r_a, r_b] =
        ([r_a, r_b], []) :=
  ⟨(claim_C5_error_policy deps_err [] "查询" [] (7/10) (3/10) 10 (7/10)
      true true "检索失败").1 rfl,
   (claim_C5_error_policy deps_err [] "查询" [] (7/10) (3/10) 10 (7/10)
      true true "重排序失败").2.2.2.1 [r_a, r_b] rfl,
   (claim_C5_error_policy deps_err [] "查询" [] (7/10) (3/10) 10 (7/10)
      true true "编码失败").2.2.2.2 [r_a, r_b] rfl⟩

/-- C7: the orchestrator returns at most max_results results, and it equals
the untruncated pipeline (retrieval, then optional reranking and clustering)
followed by a final cut to max_results: truncation is the last step. -/
theorem claim_C7_truncation_last (deps : SearchDeps) (logs : List LogEntry)
    (query : String) (kbs : List String) (strategy : String) (sw fw : ℚ)
    (mr : ℕ) (ms : ℚ) (uR uC : Bool) :
    (∀ rs cs, search deps logs query kbs strategy sw fw mr ms uR uC =
        Except.ok (rs, cs) → rs.length ≤ mr) ∧
    search deps logs query kbs strategy sw fw mr ms uR uC =
      (search_untruncated deps logs query kbs strategy sw fw mr ms uR uC).map
        (fun p => (p.1.take mr, p.2)) := by
  have heq : search deps logs query kbs strategy sw fw mr ms uR uC =
      (search_untruncated deps logs query kbs strategy sw fw mr ms uR uC).map
        (fun p => (p.1.take mr, p.2)) := by
    unfold search search_untruncated
    by_cases h1 : (if strategy = "auto" then (determine_best_strategy logs query).toStr
        else strategy) = "semantic"
    · simp only [if_pos h1]
      cases hret : deps.semantic_retrieve query kbs (mr * 2) ms <;> rfl
    · simp only [if_neg h1]
      by_cases h2 : (if strategy = "auto" then
          (determine_best_strategy logs query).toStr else strategy) = "fulltext"
      · simp only [if_pos h2]
        cases hret : deps.fulltext_retrieve query kbs (mr * 2) ms <;> rfl
      · simp only [if_neg h2]
        by_cases h3 : (if strategy = "auto" then
            (determine_best_strategy logs query).toStr else strategy) = "hybrid"
        · simp only [if_pos h3]
          cases hret : deps.hybrid_retrieve query kbs sw fw (mr * 2) ms <;> rfl
        · simp only [if_neg h3]
          rfl
  refine ⟨fun rs cs hok => ?_, heq⟩
  rw [heq] at hok
  cases hun : search_untruncated deps logs query kbs strategy sw fw mr ms uR uC with
  | error e => rw [hun] at hok; simp [Except.map] at hok
  | ok p =>
    rw [hun] at hok
    simp [Except.map] at hok
    rcases hok with ⟨h1, _⟩
    rw [← h1]
    simp [List.length_take_le]

theorem claim_C7_truncation_last_witness :
    ([r_a] : List SearchResult).length ≤ 1 :=
  (claim_C7_truncation_last deps_ok [] "查询" [] "semantic" (7/10) (3/10)
    1 (7/10) false false).1 [r_a] [] (by rfl)

/-- C1 fails on the code: the query "ab" is shorter than 5 characters and
contains no quote, no special punctuation and no keyword of any list, yet
strategy selection with an empty history returns hybrid, not fulltext
(feature scores are fulltext 0.4 against the hybrid base 0.5). -/
theorem claim_C1_counterexample :
    ("ab".length < 5 ∧ has_quote "ab" = false ∧ has_special "ab" = false ∧
      contains_any definition_terms "ab" = false ∧
      contains_any operation_terms "ab" = false ∧
      contains_any comparison_terms "ab" = false ∧
      contains_any open_terms "ab" = false) ∧
    determine_best_strategy [] "ab" ≠ Strategy.fulltext ∧
    determine_best_strategy [] "ab" = Strategy.hybrid := by
  refine ⟨⟨?_, ?_, ?_, ?_, ?_, ?_, ?_⟩, ?_, ?_⟩ <;> decide!

/-- C1 amended: for every query shorter than 5 characters with no quote
characters, none of the special punctuation characters, and no
definition, procedural, comparison or open-ended keyword, strategy selection
with an empty query-log history returns hybrid. -/
theorem claim_C1_amended (q : String) (h1 : q.length < 5)
    (h2 : has_quote q = false) (h3 : has_special q = false)
    (h4 : contains_any definition_terms q = false)
    (h5 : contains_any operation_terms q = false)
    (h6 : contains_any comparison_terms q = false)
    (h7 : contains_any open_terms q = false) :
    determine_best_strategy [] q = Strategy.hybrid := by
  have hh : analyze_historical_performance [] q = ⟨0, 0, 0⟩ := rfl
  unfold determine_best_strategy
  rw [hh]
  by_cases hw : (tokens q).length > 7
  · have hf : analyze_query_features q = ⟨1/5, 2/5, 1/2⟩ := by
      simp [analyze_query_features, h1, h2, h3, h4, h5, h6, h7, hw]
    rw [hf]; decide!
  · have hf : analyze_query_features q = ⟨0, 2/5, 1/2⟩ := by
      simp [analyze_query_features, h1, h2, h3, h4, h5, h6, h7, hw]
    rw [hf]; decide!

theorem claim_C1_amended_witness :
    determine_best_strategy [] "语法" = Strategy.hybrid :=
  claim_C1_amended "语法" (by decide!) (by decide!) (by decide!) (by decide!)
    (by decide!) (by decide!) (by decide!)

/-- C3: strategy selection picks a strategy of maximal final score
(0.7 * feature + 0.3 * history); whenever it returns a non-hybrid strategy,
that strategy has maximal final score and beats hybrid by at least 0.1, and
whenever it returns hybrid, either hybrid has maximal final score or some
maximal non-hybrid strategy beats hybrid by strictly less than 0.1. -/
theorem claim_C3_selection (f h : StrategyScores) :
    (select_strategy_by_scores f h ≠ Strategy.hybrid →
      ((∀ t, (final_scores f h).score t ≤
          (final_scores f h).score (select_strategy_by_scores f h)) ∧
        1/10 ≤ (final_scores f h).score (select_strategy_by_scores f h) -
          (final_scores f h).hybrid)) ∧
    (select_strategy_by_scores f h = Strategy.hybrid →
      ((∀ t, (final_scores f h).score t ≤ (final_scores f h).hybrid) ∨
        ∃ s, s ≠ Strategy.hybrid ∧
          (∀ t, (final_scores f h).score t ≤ (final_scores f h).score s) ∧
          (final_scores f h).score s - (final_scores f h).hybrid < 1/10)) := by
  generalize hfs : final_scores f h = fs
  unfold select_strategy_by_scores
  rw [hfs]
  by_cases c1 : fs.fulltext ≤ fs.semantic ∧ fs.hybrid ≤ fs.semantic
  · simp only [if_pos c1]
    by_cases c2 : Strategy.semantic ≠ Strategy.hybrid ∧
        fs.score Strategy.semantic - fs.hybrid < 1/10
    · simp only [if_pos c2]
      refine ⟨fun hne => absurd rfl hne, fun _ => Or.inr ?_⟩
      exact ⟨Strategy.semantic, by decide,
        fun t => by cases t <;> simp [StrategyScores.score] <;> linarith [c1.1, c1.2],
        c2.2⟩
    · simp only [if_neg c2]
      refine ⟨fun _ => ⟨fun t => ?_, ?_⟩, fun hh => by cases hh⟩
      · cases t <;> simp [StrategyScores.score] <;> linarith [c1.1, c1.2]
      · rcases not_and_or.mp c2 with hc | hc
        · exact absurd (by decide) hc
        · simpa [StrategyScores.score] using not_lt.mp hc
  · simp only [if_neg c1]
    by_cases c2 : fs.hybrid ≤ fs.fulltext
    · simp only [if_pos c2]
      have hsf : fs.semantic < fs.fulltext := by
        rcases not_and_or.mp c1 with hc | hc
        · exact not_le.mp hc
        · exact lt_of_lt_of_le (not_le.mp hc) c2
      by_cases c3 : Strategy.fulltext ≠ Strategy.hybrid ∧
          fs.score Strategy.fulltext - fs.hybrid < 1/10
      · simp only [if_pos c3]
        refine ⟨fun hne => absurd rfl hne, fun _ => Or.inr ?_⟩
        exact ⟨Strategy.fulltext, by decide,
          fun t => by cases t <;> simp [StrategyScores.score] <;> linarith,
          c3.2⟩
      · simp only [if_neg c3]
        refine ⟨fun _ => ⟨fun t => ?_, ?_⟩, fun hh => by cases hh⟩
        · cases t <;> simp [StrategyScores.score] <;> linarith
        · rcases not_and_or.mp c3 with hc | hc
          · exact absurd (by decide) hc
          · simpa [StrategyScores.score] using not_lt.mp hc
    · simp only [if_neg c2]
      have hfh : fs.fulltext < fs.hybrid := not_le.mp c2
      have hsh : fs.semantic < fs.hybrid := by
        rcases not_and_or.mp c1 with hc | hc
        · exact lt_trans (not_le.mp hc) hfh
        · exact not_le.mp hc
      rw [if_neg (by simp)]
      refine ⟨fun hne => absurd rfl hne, fun _ => Or.inl fun t => ?_⟩
      cases t <;> simp [StrategyScores.score] <;> linarith

theorem claim_C3_selection_witness :
    1/10 ≤ (final_scores ⟨0, 1, 0⟩ ⟨0, 1, 0⟩).score
        (select_strategy_by_scores ⟨0, 1, 0⟩ ⟨0, 1, 0⟩) -
      (final_scores ⟨0, 1, 0⟩ ⟨0, 1, 0⟩).hybrid ∧
    (final_scores ⟨0, 1, 0⟩ ⟨0, 1, 0⟩).score Strategy.semantic ≤
      (final_scores ⟨0, 1, 0⟩ ⟨0, 1, 0⟩).score
        (select_strategy_by_scores ⟨0, 1, 0⟩ ⟨0, 1, 0⟩) :=
  ⟨((claim_C3_selection ⟨0, 1, 0⟩ ⟨0, 1, 0⟩).1 (by decide!)).2,
   ((claim_C3_selection ⟨0, 1, 0⟩ ⟨0, 1, 0⟩).1 (by decide!)).1 Strategy.semantic⟩

theorem legacy_fuse_min (sem full : List SearchResult) (sw fw ms : ℚ) :
    ∀ r ∈ legacy_fuse sem full sw fw ms, ms ≤ r.score := by
  intro r hr
  unfold legacy_fuse sort_by_score_desc at hr
  rw [(List.perm_insertionSort _ _).mem_iff] at hr
  rw [List.mem_filterMap] at hr
  obtain ⟨p, _, hp⟩ := hr
  by_cases hc : ms ≤ p.2.semantic_score * sw + p.2.fulltext_score * fw
  · rw [if_pos hc] at hp
    cases hp
    exact hc
  · rw [if_neg hc] at hp
    cases hp

theorem legacy_fuse_sorted (sem full : List SearchResult) (sw fw ms : ℚ) :
    List.Sorted score_ge (legacy_fuse sem full sw fw ms) := by
  unfold legacy_fuse sort_by_score_desc
  exact List.sorted_insertionSort _ _

/-- C4: every candidate in the fused output has combined score at least
min_score, and the fused output is sorted by descending combined score. -/
theorem claim_C4_fuse_filter_sort (sem full : List SearchResult)
    (sw fw ms : ℚ) :
    (∀ r ∈ legacy_fuse sem full sw fw ms, ms ≤ r.score) ∧
      List.Sorted score_ge (legacy_fuse sem full sw fw ms) :=
  ⟨legacy_fuse_min sem full sw fw ms, legacy_fuse_sorted sem full sw fw ms⟩

theorem claim_C4_fuse_filter_sort_witness :
    (1/2 : ℚ) ≤ r_a.score ∧
      List.Sorted score_ge (legacy_fuse [r_a] [] 1 0 (1/2)) :=
  ⟨(claim_C4_fuse_filter_sort [r_a] [] 1 0 (1/2)).1 r_a (by decide!),
   (claim_C4_fuse_filter_sort [r_a] [] 1 0 (1/2)).2⟩

/-- C10: the fallback hybrid path calls both sub-retrievals with the relaxed
threshold min_score * 0.8 rather than min_score, so a hit whose
single-retriever score is at least 0.8 * min_score (possibly below
min_score) enters the fusion inputs, while the caller's min_score bounds
only the combined scores of the fused output. -/
theorem claim_C10_relaxed_threshold (sem_hits full_hits : List RawHit)
    (sw fw ms : ℚ) :
    legacy_hybrid_search sem_hits full_hits sw fw ms =
      legacy_fuse (semantic_search_model sem_hits (ms * (4/5)))
        (fulltext_search_model full_hits (ms * (4/5))) sw fw ms ∧
    (∀ h ∈ sem_hits, ms * (4/5) ≤ h.score →
      hit_to_result h ∈ semantic_search_model sem_hits (ms * (4/5))) ∧
    (∀ h ∈ full_hits, ms * (4/5) ≤ h.score →
      hit_to_result h ∈ fulltext_search_model full_hits (ms * (4/5))) ∧
    (∀ r ∈ legacy_hybrid_search sem_hits full_hits sw fw ms, ms ≤ r.score) := by
  refine ⟨rfl, fun h hm hs => ?_, fun h hm hs => ?_, fun r hr => ?_⟩
  · exact List.mem_map_of_mem _ (List.mem_filter.mpr ⟨hm, decide_eq_true hs⟩)
  · exact List.mem_map_of_mem _ (List.mem_filter.mpr ⟨hm, decide_eq_true hs⟩)
  · exact legacy_fuse_min _ _ _ _ _ r hr

theorem claim_C10_relaxed_threshold_witness :
    hit_to_result hit_sem ∈ semantic_search_model [hit_sem] ((7/10) * (4/5)) ∧
      (7/10 : ℚ) ≤ ({hit_to_result hit_sem with score := 18/25}).score :=
  ⟨(claim_C10_relaxed_threshold [hit_sem] [hit_full] (7/10) (3/10) (7/10)).2.1
      hit_sem (by decide!) (by decide!),
   (claim_C10_relaxed_threshold [hit_sem] [hit_full] (7/10) (3/10) (7/10)).2.2.2
      {hit_to_result hit_sem with score := 18/25} (by decide!)⟩

theorem result_key_set_score (r : SearchResult) (s : ℚ) :
    result_key {r with score := s} = result_key r := rfl

theorem lookup_entry_cons (kk : String) (ee : FusionEntry)
    (mm : List (String × FusionEntry)) (k : String) :
    lookup_entry ((kk, ee) :: mm) k =
      if kk = k then some ee else lookup_entry mm k := rfl

theorem add_semantic_cons (kk : String) (ee : FusionEntry)
    (rest : List (String × FusionEntry)) (r : SearchResult) :
    add_semantic ((kk, ee) :: rest) r =
      if kk = result_key r then (kk, ⟨r, r.score, 0⟩) :: rest
      else (kk, ee) :: add_semantic rest r := rfl

theorem add_fulltext_cons (kk : String) (ee : FusionEntry)
    (rest : List (String × FusionEntry)) (r : SearchResult) :
    add_fulltext ((kk, ee) :: rest) r =
      if kk = result_key r then (kk, ⟨ee.result, ee.semantic_score, r.score⟩) :: rest
      else (kk, ee) :: add_fulltext rest r := rfl

theorem lookup_add_semantic (m : List (String × FusionEntry))
    (r : SearchResult) (k : String) :
    lookup_entry (add_semantic m r) k =
      if k = result_key r then some ⟨r, r.score, 0⟩ else lookup_entry m k := by
  induction m with
  | nil =>
    by_cases hk : k = result_key r
    · simp [add_semantic, lookup_entry, hk]
    · simp [add_semantic, lookup_entry, hk]
      exact fun h => hk (Eq.symm h)
  | cons p rest ih =>
    obtain ⟨k', e⟩ := p
    by_cases h1 : k' = result_key r <;> by_cases hk : k' = k
    · have hkr : k = result_key r := hk ▸ h1
      simp [add_semantic_cons, lookup_entry_cons, h1, hkr]
    · have hne : ¬ result_key r = k := h1 ▸ hk
      have hkr : ¬ k = result_key r := fun h => hne h.symm
      simp [add_semantic_cons, lookup_entry_cons, h1, hne, hkr]
    · have hkr : ¬ k = result_key r := fun h => h1 (hk.trans h)
      simp [add_semantic_cons, lookup_entry_cons, h1, hk, hkr]
    · simp [add_semantic_cons, lookup_entry_cons, h1, hk, ih]

theorem lookup_add_fulltext (m : List (String × FusionEntry))
    (r : SearchResult) (k : String) :
    lookup_entry (add_fulltext m r) k =
      if k = result_key r then
        (match lookup_entry m (result_key r) with
          | some e => some ⟨e.result, e.semantic_score, r.score⟩
          | none => some ⟨r, 0, r.score⟩)
      else lookup_entry m k := by
  induction m with
  | nil =>
    by_cases hk : k = result_key r
    · simp [add_fulltext, lookup_entry, hk]
    · simp [add_fulltext, lookup_entry, hk]
      exact fun h => hk (Eq.symm h)
  | cons p rest ih =>
    obtain ⟨k', e⟩ := p
    by_cases h1 : k' = result_key r <;> by_cases hk : k' = k
    · have hkr : k = result_key r := hk ▸ h1
      simp [add_fulltext_cons, lookup_entry_cons, h1, hkr]
    · have hne : ¬ result_key r = k := h1 ▸ hk
      have hkr : ¬ k = result_key r := fun h => hne h.symm
      simp [add_fulltext_cons, lookup_entry_cons, h1, hne, hkr]
    · have hkr : ¬ k = result_key r := fun h => h1 (hk.trans h)
      simp [add_fulltext_cons, lookup_entry_cons, h1, hk, hkr]
    · simp [add_fulltext_cons, lookup_entry_cons, h1, hk, ih]

theorem lookup_foldl_semantic_ne (sem : List SearchResult)
    (m : List (String × FusionEntry)) (k : String)
    (h : ∀ x ∈ sem, result_key x ≠ k) :
    lookup_entry (sem.foldl add_semantic m) k = lookup_entry m k := by
  induction sem generalizing m with
  | nil => rfl
  | cons a rest ih =>
    rw [List.foldl_cons, ih (add_semantic m a)
      (fun x hx => h x (List.mem_cons_of_mem a hx))]
    rw [lookup_add_semantic, if_neg (fun hk => h a (List.mem_cons_self a rest) hk.symm)]

theorem lookup_foldl_semantic_unique (sem : List SearchResult)
    (m : List (String × FusionEntry)) (k : String) (sr : SearchResult)
    (hsr : sr ∈ sem) (hk : result_key sr = k)
    (huniq : ∀ x ∈ sem, result_key x = k → x = sr) :
    lookup_entry (sem.foldl add_semantic m) k = some ⟨sr, sr.score, 0⟩ := by
  induction sem generalizing m with
  | nil => cases hsr
  | cons a rest ih =>
    rw [List.foldl_cons]
    by_cases hmem : sr ∈ rest
    · exact ih (add_semantic m a) hmem
        (fun x hx hkx => huniq x (List.mem_cons_of_mem a hx) hkx)
    · have ha : a = sr := by
        rcases List.mem_cons.mp hsr with h | h
        · exact h.symm
        · exact absurd h hmem
      subst ha
      have hrest : ∀ x ∈ rest, result_key x ≠ k := by
        intro x hx hkx
        exact hmem ((huniq x (List.mem_cons_of_mem a hx) hkx) ▸ hx)
      rw [lookup_foldl_semantic_ne rest _ k hrest, lookup_add_semantic,
        if_pos hk.symm]

theorem lookup_foldl_fulltext_ne (full : List SearchResult)
    (m : List (String × FusionEntry)) (k : String)
    (h : ∀ x ∈ full, result_key x ≠ k) :
    lookup_entry (full.foldl add_fulltext m) k = lookup_entry m k := by
  induction full generalizing m with
  | nil => rfl
  | cons a rest ih =>
    rw [List.foldl_cons, ih (add_fulltext m a)
      (fun x hx => h x (List.mem_cons_of_mem a hx))]
    rw [lookup_add_fulltext, if_neg (fun hk => h a (List.mem_cons_self a rest) hk.symm)]

theorem lookup_foldl_fulltext_unique (full : List SearchResult)
    (m : List (String × FusionEntry)) (k : String) (fr : SearchResult)
    (hfr : fr ∈ full) (hk : result_key fr = k)
    (huniq : ∀ x ∈ full, result_key x = k → x = fr) :
    lookup_entry (full.foldl add_fulltext m) k =
      (match lookup_entry m k with
        | some e => some ⟨e.result, e.semantic_score, fr.score⟩
        | none => some ⟨fr, 0, fr.score⟩) := by
  induction full generalizing m with
  | nil => cases hfr
  | cons a rest ih =>
    rw [List.foldl_cons]
    by_cases hmem : fr ∈ rest
    · rw [ih (add_fulltext m a) hmem
        (fun x hx hkx => huniq x (List.mem_cons_of_mem a hx) hkx)]
      by_cases hka : result_key a = k
      · have ha : a = fr := huniq a (List.mem_cons_self a rest) hka
        subst ha
        rw [lookup_add_fulltext, if_pos hk.symm, hk]
        cases hm : lookup_entry m k <;> simp
      · rw [lookup_add_fulltext, if_neg (fun h => hka h.symm)]
    · have ha : a = fr := by
        rcases List.mem_cons.mp hfr with h | h
        · exact h.symm
        · exact absurd h hmem
      subst ha
      have hrest : ∀ x ∈ rest, result_key x ≠ k := by
        intro x hx hkx
        exact hmem ((huniq x (List.mem_cons_of_mem a hx) hkx) ▸ hx)
      rw [lookup_foldl_fulltext_ne rest _ k hrest, lookup_add_fulltext,
        if_pos hk.symm, hk]

theorem coherent_add_semantic :
    ∀ (m : List (String × FusionEntry)) (r : SearchResult),
      entries_coherent m → entries_coherent (add_semantic m r)
  | [], r, _ => by
    intro p hp
    simp only [add_semantic, List.mem_singleton] at hp
    subst hp
    rfl
  | (k', e) :: rest, r, h => by
    intro p hp
    rw [add_semantic_cons] at hp
    by_cases h1 : k' = result_key r
    · rw [if_pos h1] at hp
      rcases List.mem_cons.mp hp with rfl | hp'
      · exact h1
      · exact h p (List.mem_cons_of_mem _ hp')
    · rw [if_neg h1] at hp
      rcases List.mem_cons.mp hp with rfl | hp'
      · exact h (k', e) (List.mem_cons_self _ _)
      · exact coherent_add_semantic rest r
          (fun q hq => h q (List.mem_cons_of_mem _ hq)) p hp'

theorem coherent_add_fulltext :
    ∀ (m : List (String × FusionEntry)) (r : SearchResult),
      entries_coherent m → entries_coherent (add_fulltext m r)
  | [], r, _ => by
    intro p hp
    simp only [add_fulltext, List.mem_singleton] at hp
    subst hp
    rfl
  | (k', e) :: rest, r, h => by
    intro p hp
    rw [add_fulltext_cons] at hp
    by_cases h1 : k' = result_key r
    · rw [if_pos h1] at hp
      rcases List.mem_cons.mp hp with rfl | hp'
      · exact h (k', e) (List.mem_cons_self _ _)
      · exact h p (List.mem_cons_of_mem _ hp')
    · rw [if_neg h1] at hp
      rcases List.mem_cons.mp hp with rfl | hp'
      · exact h (k', e) (List.mem_cons_self _ _)
      · exact coherent_add_fulltext rest r
          (fun q hq => h q (List.mem_cons_of_mem _ hq)) p hp'

theorem coherent_foldl_semantic (sem : List SearchResult) :
    ∀ (m : List (String × FusionEntry)), entries_coherent m →
      entries_coherent (sem.foldl add_semantic m) := by
  induction sem with
  | nil => exact fun m h => h
  | cons a rest ih =>
    intro m h
    rw [List.foldl_cons]
    exact ih _ (coherent_add_semantic m a h)

theorem coherent_foldl_fulltext (full : List SearchResult) :
    ∀ (m : List (String × FusionEntry)), entries_coherent m →
      entries_coherent (full.foldl add_fulltext m) := by
  induction full with
  | nil => exact fun m h => h
  | cons a rest ih =>
    intro m h
    rw [List.foldl_cons]
    exact ih _ (coherent_add_fulltext m a h)

theorem mem_keys_add_semantic (m : List (String × FusionEntry))
    (r : SearchResult) (x : String) :
    x ∈ (add_semantic m r).map Prod.fst ↔
      x ∈ m.map Prod.fst ∨ x = result_key r := by
  induction m with
  | nil => simp [add_semantic]
  | cons p rest ih =>
    obtain ⟨k', e⟩ := p
    rw [add_semantic_cons]
    by_cases h1 : k' = result_key r
    · rw [if_pos h1]
      subst h1
      simp
      tauto
    · rw [if_neg h1]
      simp only [List.map_cons, List.mem_cons, ih]
      tauto

theorem mem_keys_add_fulltext (m : List (String × FusionEntry))
    (r : SearchResult) (x : String) :
    x ∈ (add_fulltext m r).map Prod.fst ↔
      x ∈ m.map Prod.fst ∨ x = result_key r := by
  induction m with
  | nil => simp [add_fulltext]
  | cons p rest ih =>
    obtain ⟨k', e⟩ := p
    rw [add_fulltext_cons]
    by_cases h1 : k' = result_key r
    · rw [if_pos h1]
      subst h1
      simp
      tauto
    · rw [if_neg h1]
      simp only [List.map_cons, List.mem_cons, ih]
      tauto

theorem nodup_keys_add_semantic (m : List (String × FusionEntry))
    (r : SearchResult) (h : (m.map Prod.fst).Nodup) :
    ((add_semantic m r).map Prod.fst).Nodup := by
  induction m with
  | nil => simp [add_semantic]
  | cons p rest ih =>
    obtain ⟨k', e⟩ := p
    rw [add_semantic_cons]
    simp only [List.map_cons, List.nodup_cons] at h
    by_cases h1 : k' = result_key r
    · rw [if_pos h1]
      simp only [List.map_cons, List.nodup_cons]
      exact h
    · rw [if_neg h1]
      simp only [List.map_cons, List.nodup_cons]
      refine ⟨fun hmem => ?_, ih h.2⟩
      rcases (mem_keys_add_semantic rest r k').mp hmem with hm | hm
      · exact h.1 hm
      · exact h1 hm

theorem nodup_keys_add_fulltext (m : List (String × FusionEntry))
    (r : SearchResult) (h : (m.map Prod.fst).Nodup) :
    ((add_fulltext m r).map Prod.fst).Nodup := by
  induction m with
  | nil => simp [add_fulltext]
  | cons p rest ih =>
    obtain ⟨k', e⟩ := p
    rw [add_fulltext_cons]
    simp only [List.map_cons, List.nodup_cons] at h
    by_cases h1 : k' = result_key r
    · rw [if_pos h1]
      simp only [List.map_cons, List.nodup_cons]
      exact h
    · rw [if_neg h1]
      simp only [List.map_cons, List.nodup_cons]
      refine ⟨fun hmem => ?_, ih h.2⟩
      rcases (mem_keys_add_fulltext rest r k').mp hmem with hm | hm
      · exact h.1 hm
      · exact h1 hm

theorem nodup_keys_foldl_semantic (sem : List SearchResult) :
    ∀ (m : List (String × FusionEntry)), (m.map Prod.fst).Nodup →
      ((sem.foldl add_semantic m).map Prod.fst).Nodup := by
  induction sem with
  | nil => exact fun m h => h
  | cons a rest ih =>
    intro m h
    rw [List.foldl_cons]
    exact ih _ (nodup_keys_add_semantic m a h)

theorem nodup_keys_foldl_fulltext (full : List SearchResult) :
    ∀ (m : List (String × FusionEntry)), (m.map Prod.fst).Nodup →
      ((full.foldl add_fulltext m).map Prod.fst).Nodup := by
  induction full with
  | nil => exact fun m h => h
  | cons a rest ih =>
    intro m h
    rw [List.foldl_cons]
    exact ih _ (nodup_keys_add_fulltext m a h)

theorem lookup_mem_keys (m : List (String × FusionEntry)) (k : String)
    (e : FusionEntry) (h : lookup_entry m k = some e) :
    k ∈ m.map Prod.fst := by
  induction m with
  | nil => cases h
  | cons p rest ih =>
    obtain ⟨k', e'⟩ := p
    rw [lookup_entry_cons] at h
    by_cases hk : k' = k
    · simp [hk]
    · rw [if_neg hk] at h
      simp only [List.map_cons, List.mem_cons]
      exact Or.inr (ih h)

theorem fuse_filterMap_count_zero (sw fw ms : ℚ) :
    ∀ (m : List (String × FusionEntry)) (K : String), entries_coherent m →
      (∀ p ∈ m, p.1 ≠ K) →
      ((m.filterMap (fun p =>
          let cs := p.2.semantic_score * sw + p.2.fulltext_score * fw
          if ms ≤ cs then some {p.2.result with score := cs} else none)).countP
        (fun r => result_key r == K)) = 0
  | [], _, _, _ => rfl
  | (k', e) :: rest, K, coh, hK => by
    have hk' : k' ≠ K := hK (k', e) (List.mem_cons_self _ _)
    have hck : result_key e.result = k' := (coh (k', e) (List.mem_cons_self _ _)).symm
    have ihz := fuse_filterMap_count_zero sw fw ms rest K
      (fun q hq => coh q (List.mem_cons_of_mem _ hq))
      (fun q hq => hK q (List.mem_cons_of_mem _ hq))
    rw [List.filterMap_cons]
    by_cases hkeep : ms ≤ e.semantic_score * sw + e.fulltext_score * fw
    · simp only [if_pos hkeep, List.countP_cons, ihz, result_key_set_score, hck]
      simp [hk']
    · simp only [if_neg hkeep, ihz]

theorem fuse_filterMap_count_one (sw fw ms : ℚ) :
    ∀ (m : List (String × FusionEntry)) (K : String) (e : FusionEntry),
      entries_coherent m → (m.map Prod.fst).Nodup →
      lookup_entry m K = some e →
      ms ≤ e.semantic_score * sw + e.fulltext_score * fw →
      ((m.filterMap (fun p =>
          let cs := p.2.semantic_score * sw + p.2.fulltext_score * fw
          if ms ≤ cs then some {p.2.result with score := cs} else none)).countP
            (fun r => result_key r == K) = 1 ∧
        ∀ r ∈ (m.filterMap (fun p =>
          let cs := p.2.semantic_score * sw + p.2.fulltext_score * fw
          if ms ≤ cs then some {p.2.result with score := cs} else none)),
          result_key r = K →
            r = {e.result with
              score := e.semantic_score * sw + e.fulltext_score * fw})
  | [], K, e, _, _, hlk, _ => by cases hlk
  | (k', e') :: rest, K, e, coh, nd, hlk, hkeep => by
    simp only [List.map_cons, List.nodup_cons] at nd
    rw [lookup_entry_cons] at hlk
    by_cases hk : k' = K
    · rw [if_pos hk] at hlk
      have hee : e' = e := Option.some.inj hlk
      subst hee
      have hck : result_key e'.result = k' :=
        (coh (k', e') (List.mem_cons_self _ _)).symm
      have hKk : result_key e'.result = K := hck.trans hk
      have hrestK : ∀ p ∈ rest, p.1 ≠ K := by
        intro p hp hpk
        apply nd.1
        have hmm : p.1 ∈ rest.map Prod.fst := List.mem_map_of_mem Prod.fst hp
        rw [hpk, ← hk] at hmm
        exact hmm
      have hz := fuse_filterMap_count_zero sw fw ms rest K
        (fun q hq => coh q (List.mem_cons_of_mem _ hq)) hrestK
      rw [List.filterMap_cons]
      simp only [if_pos hkeep]
      constructor
      · simp [List.countP_cons, hz, result_key_set_score, hKk]
      · intro r hr hkr
        rcases List.mem_cons.mp hr with rfl | hr'
        · rfl
        · exfalso
          rw [List.mem_filterMap] at hr'
          obtain ⟨p, hpmem, hpf⟩ := hr'
          by_cases hc : ms ≤ p.2.semantic_score * sw + p.2.fulltext_score * fw
          · simp only [if_pos hc] at hpf
            cases hpf
            rw [result_key_set_score] at hkr
            exact hrestK p hpmem
              ((coh p (List.mem_cons_of_mem _ hpmem)).trans hkr)
          · simp only [if_neg hc] at hpf
            cases hpf
    · rw [if_neg hk] at hlk
      have hck : result_key e'.result = k' :=
        (coh (k', e') (List.mem_cons_self _ _)).symm
      have ih := fuse_filterMap_count_one sw fw ms rest K e
        (fun q hq => coh q (List.mem_cons_of_mem _ hq)) nd.2 hlk hkeep
      rw [List.filterMap_cons]
      by_cases hc : ms ≤ e'.semantic_score * sw + e'.fulltext_score * fw
      · simp only [if_pos hc]
        constructor
        · simp only [List.countP_cons, ih.1, result_key_set_score, hck]
          simp [hk]
        · intro r hr hkr
          rcases List.mem_cons.mp hr with rfl | hr'
          · exfalso
            rw [result_key_set_score] at hkr
            exact hk (hck.symm.trans hkr)
          · exact ih.2 r hr' hkr
      · simp only [if_neg hc]
        exact ih

/-- C2 fails as stated: with semantic score 0.9 and fulltext score 0.5 at the
same candidate key and min_score = 0.9, the combined score 0.78 falls below
min_score, so the fused output contains no candidate for that key rather than
exactly one. -/
theorem claim_C2_counterexample :
    result_key sem_r = result_key full_r ∧
      sem_r.score = 9/10 ∧ full_r.score = 1/2 ∧
      (legacy_fuse [sem_r] [full_r] (7/10) (3/10) (9/10)).countP
        (fun r => result_key r == result_key sem_r) = 0 := by
  refine ⟨?_, ?_, ?_, ?_⟩ <;> decide!

/-- C2 amended: when the shared candidate key occurs exactly once in the
semantic input (at a result with score s) and exactly once in the fulltext
input (at a result with score f), and s*semantic_weight + f*fulltext_weight
reaches min_score, the fused output contains exactly one candidate for that
key and its score equals s*semantic_weight + f*fulltext_weight.  In
particular, with weights 0.7/0.3, scores 0.9/0.5 and min_score 0.7 the
candidate is included once with combined score 0.78. -/
theorem claim_C2_amended_dedup (sem full : List SearchResult) (sw fw ms : ℚ)
    (sr fr : SearchResult) (hsr : sr ∈ sem)
    (husem : ∀ x ∈ sem, result_key x = result_key sr → x = sr)
    (hfr : fr ∈ full) (hkey : result_key fr = result_key sr)
    (hufull : ∀ x ∈ full, result_key x = result_key fr → x = fr)
    (hms : ms ≤ sr.score * sw + fr.score * fw) :
    (legacy_fuse sem full sw fw ms).countP
        (fun r => result_key r == result_key sr) = 1 ∧
      ∀ r ∈ legacy_fuse sem full sw fw ms, result_key r = result_key sr →
        r.score = sr.score * sw + fr.score * fw := by
  have h1 : lookup_entry (sem.foldl add_semantic []) (result_key sr) =
      some ⟨sr, sr.score, 0⟩ :=
    lookup_foldl_semantic_unique sem [] (result_key sr) sr hsr rfl husem
  have h2 : lookup_entry
      (full.foldl add_fulltext (sem.foldl add_semantic [])) (result_key sr) =
      some ⟨sr, sr.score, fr.score⟩ := by
    rw [lookup_foldl_fulltext_unique full _ (result_key sr) fr hfr hkey
      (fun x hx hkx => hufull x hx (hkx.trans hkey.symm)), h1]
  have hcoh : entries_coherent
      (full.foldl add_fulltext (sem.foldl add_semantic [])) :=
    coherent_foldl_fulltext full _
      (coherent_foldl_semantic sem [] (fun p hp => absurd hp (List.not_mem_nil p)))
  have hnd : ((full.foldl add_fulltext (sem.foldl add_semantic [])).map
      Prod.fst).Nodup :=
    nodup_keys_foldl_fulltext full _
      (nodup_keys_foldl_semantic sem [] List.nodup_nil)
  have hcount := fuse_filterMap_count_one sw fw ms
    (full.foldl add_fulltext (sem.foldl add_semantic [])) (result_key sr)
    ⟨sr, sr.score, fr.score⟩ hcoh hnd h2 hms
  constructor
  · unfold legacy_fuse sort_by_score_desc
    rw [(List.perm_insertionSort _ _).countP_eq]
    exact hcount.1
  · intro r hr hkr
    unfold legacy_fuse sort_by_score_desc at hr
    rw [(List.perm_insertionSort _ _).mem_iff] at hr
    rw [hcount.2 r hr hkr]

theorem claim_C2_amended_dedup_witness :
    (legacy_fuse [sem_r] [full_r] (7/10) (3/10) (7/10)).countP
        (fun r => result_key r == result_key sem_r) = 1 ∧
      ({sem_r with score := 39/50} : SearchResult).score =
        sem_r.score * (7/10) + full_r.score * (3/10) :=
  ⟨(claim_C2_amended_dedup [sem_r] [full_r] (7/10) (3/10) (7/10) sem_r full_r
      (by decide!) (by decide!) (by decide!) (by decide!) (by decide!)
      (by decide!)).1,
   (claim_C2_amended_dedup [sem_r] [full_r] (7/10) (3/10) (7/10) sem_r full_r
      (by decide!) (by decide!) (by decide!) (by decide!) (by decide!)
      (by decide!)).2 {sem_r with score := 39/50} (by decide!) (by decide!)⟩

theorem group_of_cons (k : ℤ) (g : List SearchResult)
    (rest : List (ℤ × List SearchResult)) (c : ℤ) :
    group_of ((k, g) :: rest) c = if k = c then g else group_of rest c := rfl

theorem insert_member_cons (c : ℤ) (r : SearchResult) (k : ℤ)
    (g : List SearchResult) (rest : List (ℤ × List SearchResult)) :
    insert_member c r ((k, g) :: rest) =
      if k = c then (k, g ++ [r]) :: rest
      else (k, g) :: insert_member c r rest := rfl

theorem group_insert (c : ℤ) (r : SearchResult) :
    ∀ (m : List (ℤ × List SearchResult)) (x : ℤ),
      group_of (insert_member c r m) x =
        if x = c then group_of m x ++ [r] else group_of m x
  | [], x => by
    by_cases hx : x = c
    · simp [insert_member, group_of, hx]
    · simp [insert_member, group_of, hx]
      exact fun h => hx (Eq.symm h)
  | (k, g) :: rest, x => by
    rw [insert_member_cons]
    by_cases h1 : k = c <;> by_cases hx : k = x
    · have hxc : x = c := hx ▸ h1
      simp [group_of_cons, h1, hx, hxc]
    · have hne : ¬ c = x := h1 ▸ hx
      have hxc : ¬ x = c := fun h => hne h.symm
      simp [group_of_cons, h1, hx, hxc, hne]
    · have hxc : ¬ x = c := fun h => h1 (hx.trans h)
      simp [group_of_cons, h1, hx, hxc]
    · simp [group_of_cons, h1, hx, group_insert c r rest x]

theorem group_build :
    ∀ (ps : List (SearchResult × ℤ)) (m : List (ℤ × List SearchResult)) (x : ℤ),
      group_of (build_cluster_map ps m) x =
        group_of m x ++ (ps.filter (fun p => p.2 == x)).map Prod.fst
  | [], m, x => by simp [build_cluster_map]
  | (r, c) :: rest, m, x => by
    rw [show build_cluster_map ((r, c) :: rest) m =
      build_cluster_map rest (insert_member c r m) from rfl]
    rw [group_build rest (insert_member c r m) x, group_insert]
    by_cases hx : x = c
    · have : (c == x) = true := by simp [hx]
      simp [List.filter_cons, this, hx]
    · have : (c == x) = false := by
        simp only [beq_eq_false_iff_ne, ne_eq]
        exact fun h => hx (Eq.symm h)
      simp [List.filter_cons, this, hx]

theorem mem_keys_insert (c : ℤ) (r : SearchResult) :
    ∀ (m : List (ℤ × List SearchResult)) (x : ℤ),
      x ∈ (insert_member c r m).map Prod.fst ↔
        x ∈ m.map Prod.fst ∨ x = c
  | [], x => by simp [insert_member]
  | (k, g) :: rest, x => by
    rw [insert_member_cons]
    by_cases h1 : k = c
    · subst h1
      simp
      tauto
    · rw [if_neg h1]
      simp only [List.map_cons, List.mem_cons, mem_keys_insert c r rest x]
      tauto

theorem nodup_keys_insert (c : ℤ) (r : SearchResult) :
    ∀ (m : List (ℤ × List SearchResult)),
      (m.map Prod.fst).Nodup → ((insert_member c r m).map Prod.fst).Nodup
  | [], _ => by simp [insert_member]
  | (k, g) :: rest, h => by
    rw [insert_member_cons]
    simp only [List.map_cons, List.nodup_cons] at h
    by_cases h1 : k = c
    · rw [if_pos h1]
      simp only [List.map_cons, List.nodup_cons]
      exact h
    · rw [if_neg h1]
      simp only [List.map_cons, List.nodup_cons]
      refine ⟨fun hmem => ?_, nodup_keys_insert c r rest h.2⟩
      rcases (mem_keys_insert c r rest k).mp hmem with hm | hm
      · exact h.1 hm
      · exact h1 hm

theorem mem_keys_build :
    ∀ (ps : List (SearchResult × ℤ)) (m : List (ℤ × List SearchResult)) (x : ℤ),
      x ∈ (build_cluster_map ps m).map Prod.fst ↔
        x ∈ m.map Prod.fst ∨ x ∈ ps.map Prod.snd
  | [], m, x => by simp [build_cluster_map]
  | (r, c) :: rest, m, x => by
    rw [show build_cluster_map ((r, c) :: rest) m =
      build_cluster_map rest (insert_member c r m) from rfl]
    rw [mem_keys_build rest (insert_member c r m) x, mem_keys_insert]
    simp only [List.map_cons, List.mem_cons]
    tauto

theorem nodup_keys_build :
    ∀ (ps : List (SearchResult × ℤ)) (m : List (ℤ × List SearchResult)),
      (m.map Prod.fst).Nodup → ((build_cluster_map ps m).map Prod.fst).Nodup
  | [], _, h => h
  | (r, c) :: rest, m, h =>
    nodup_keys_build rest (insert_member c r m) (nodup_keys_insert c r m h)

theorem group_of_annotated :
    ∀ (m : List (ℤ × List SearchResult)) (c : ℤ), c ∈ m.map Prod.fst →
      group_of (m.map (fun p => (p.1,
          p.2.map (fun r => {r with cluster := some (cluster_name_of p.1 p.2)})))) c =
        (group_of m c).map
          (fun r => {r with cluster := some (cluster_name_of c (group_of m c))})
  | [], c, hc => by cases hc
  | (k, g) :: rest, c, hc => by
    by_cases hk : k = c
    · subst hk
      simp [group_of_cons]
    · have hc' : c ∈ rest.map Prod.fst := by
        rcases List.mem_cons.mp hc with h | h
        · exact absurd h.symm hk
        · exact h
      simp only [List.map_cons, group_of_cons, if_neg hk]
      exact group_of_annotated rest c hc'

theorem flatMap_congr_mem {l : List ℤ} {f g : ℤ → List SearchResult}
    (h : ∀ c ∈ l, f c = g c) : l.flatMap f = l.flatMap g := by
  rw [List.flatMap_def, List.flatMap_def, List.map_congr_left h]

theorem sorted_asc_keys_eq (ks labels : List ℤ) (hnd : ks.Nodup)
    (hmem : ∀ x, x ∈ ks ↔ x ∈ labels) :
    List.insertionSort (fun a b : ℤ => a ≤ b) ks =
      List.insertionSort (fun a b : ℤ => a ≤ b) labels.dedup := by
  apply List.eq_of_perm_of_sorted ?_ (List.sorted_insertionSort _ _)
    (List.sorted_insertionSort _ _)
  refine (List.perm_insertionSort _ ks).trans
    (List.Perm.trans ?_ (List.perm_insertionSort _ labels.dedup).symm)
  apply List.Subperm.antisymm
  · exact hnd.subperm (fun x hx => List.mem_dedup.mpr ((hmem x).mp hx))
  · exact (List.nodup_dedup labels).subperm
      (fun x hx => (hmem x).mpr (List.mem_dedup.mp hx))

/-- C8: when clustering completes (the encoder succeeds and the external fit
labels every result), the reordered output equals the spec description:
clusters visited in ascending order of the internal identifier, members of a
cluster contiguous with their cluster field set to the representative name,
and each cluster block sorted by descending score; moreover the visited key
list is sorted ascending and every cluster block is sorted by descending
score. -/
theorem claim_C8_cluster_grouping
    (encode_batch : List String → Except String (List (List ℚ)))
    (dbscan_fit : List (List ℚ) → List ℤ)
    (results : List SearchResult) (vectors : List (List ℚ)) (labels : List ℤ)
    (hgt : 1 < results.length)
    (henc : encode_batch (results.map (fun r => r.content)) = Except.ok vectors)
    (hfit : dbscan_fit vectors = labels)
    (hlen : labels.length = results.length) :
    (cluster_results encode_batch dbscan_fit results).1 =
      cluster_output_spec results labels ∧
    List.Sorted (fun a b : ℤ => a ≤ b)
      (List.insertionSort (fun a b : ℤ => a ≤ b) labels.dedup) ∧
    ∀ c : ℤ, List.Sorted score_ge (cluster_group_spec results labels c) := by
  refine ⟨?_, List.sorted_insertionSort _ _,
    fun c => List.sorted_insertionSort _ _⟩
  have h1' : ¬ results.length ≤ 1 := by omega
  have h2' : ¬ labels.length < results.length := by omega
  unfold cluster_results
  simp only [henc, hfit, if_neg h1', if_neg h2']
  have hknodup : ((build_cluster_map (results.zip labels) []).map Prod.fst).Nodup :=
    nodup_keys_build _ _ (by simp)
  have hkmem : ∀ x, x ∈ (build_cluster_map (results.zip labels) []).map Prod.fst ↔
      x ∈ labels := by
    intro x
    rw [mem_keys_build]
    simp [List.map_snd_zip results labels (le_of_eq hlen)]
  have hamap : ((build_cluster_map (results.zip labels) []).map
        (fun p => (p.1, cluster_name_of p.1 p.2, p.2))).map
        (fun t => (t.1, t.2.2.map (fun r => {r with cluster := some t.2.1}))) =
      (build_cluster_map (results.zip labels) []).map
        (fun p => (p.1,
          p.2.map (fun r => {r with cluster := some (cluster_name_of p.1 p.2)}))) := by
    rw [List.map_map]
    rfl
  rw [hamap]
  have hkeyeq : ((build_cluster_map (results.zip labels) []).map
        (fun p => (p.1,
          p.2.map (fun r => {r with cluster := some (cluster_name_of p.1 p.2)})))).map
        Prod.fst =
      (build_cluster_map (results.zip labels) []).map Prod.fst := by
    rw [List.map_map]
    rfl
  rw [hkeyeq]
  rw [sorted_asc_keys_eq ((build_cluster_map (results.zip labels) []).map Prod.fst)
    labels hknodup hkmem]
  unfold cluster_output_spec
  apply flatMap_congr_mem
  intro c hc
  have hck : c ∈ (build_cluster_map (results.zip labels) []).map Prod.fst :=
    (hkmem c).mpr (List.mem_dedup.mp ((List.perm_insertionSort _ _).mem_iff.mp hc))
  rw [group_of_annotated _ c hck]
  have hg : group_of (build_cluster_map (results.zip labels) []) c =
      ((results.zip labels).filter (fun p => p.2 == c)).map Prod.fst := by
    rw [group_build]
    simp [group_of]
  rw [hg]
  rfl

theorem claim_C8_cluster_grouping_witness :
    (cluster_results ok_encode fit_101 [r_a, r_b, r_c]).1 =
      cluster_output_spec [r_a, r_b, r_c] [1, 0, 1] :=
  (claim_C8_cluster_grouping ok_encode fit_101 [r_a, r_b, r_c]
    [[0], [0], [0]] [1, 0, 1] (by decide) rfl rfl (by decide)).1

end SearchSpec
